import Mathlib

/-!
Verification of the Simon game core (simon/main.go): the `Sequence` data
structure, the frame/event-loop state machine of `loop`, and the timer
callbacks scheduled with `time.AfterFunc`.

Shallow embedding conventions:
* Go `int` is `Int`; Go slices of int are `List Int`.
* `rand.Intn(s.maxval)` (the random draw inside `Sequence.Reset`) is modelled
  by passing the drawn value `r` as an explicit parameter; `math/rand`
  guarantees `0 ≤ r < maxval`, which theorems take as a hypothesis where
  needed.
* `s.list[s.lindex]` in Go panics when out of range; that access is guarded by
  `lindex == len(list)` and is in-range whenever `0 ≤ lindex ≤ len(list)`
  (the cursor invariant).  The embedding uses `List.getD` with default `0`,
  which agrees with Go on every state satisfying the invariant.
* Mutation through the `*Sequence` receiver becomes explicit state passing:
  `Next` returns the pair (returned int, updated Sequence).
-/

/-- The `Sequence` struct of main.go lines 71-75: the growing list of symbols
(`list`), the replay cursor (`lindex`), and the exclusive upper bound used for
random draws (`maxval`, always 4 in this program). -/
structure Sequence where
  list : List Int
  lindex : Int
  maxval : Int
deriving Repr, DecidableEq

/-- Go `func (s *Sequence) Len() int` (lines 77-79). -/
def Sequence.Len (s : Sequence) : Int := s.list.length

/-- Go `func (s *Sequence) Reset(add bool)` (lines 81-86): set the cursor to 0
and, when `add`, append one freshly drawn symbol.  The draw
`rand.Intn(s.maxval)` is passed in as `r`; when `add` is false `r` is unused. -/
def Sequence.Reset (s : Sequence) (add : Bool) (r : Int) : Sequence :=
  if add then { s with lindex := 0, list := s.list ++ [r] }
  else { s with lindex := 0 }

/-- Go `func (s *Sequence) Next() int` (lines 88-96): return -1 when the cursor
has reached the length, otherwise return the symbol at the cursor and advance
the cursor by one. -/
def Sequence.Next (s : Sequence) : Int × Sequence :=
  if s.lindex = (s.list.length : Int) then (-1, s)
  else (s.list.getD s.lindex.toNat 0, { s with lindex := s.lindex + 1 })

/-- Go `func (s *Sequence) HasNext() bool` (lines 98-101). -/
def Sequence.HasNext (s : Sequence) : Bool :=
  decide (s.lindex < (s.list.length : Int))

/-- Calling `Next` a given number of times, collecting the returned ints in
order (used to state the replay round-trip law). -/
def Sequence.nexts (s : Sequence) : Nat → List Int × Sequence
  | 0 => ([], s)
  | Nat.succ k =>
    let r := s.Next
    let rest := r.2.nexts k
    (r.1 :: rest.1, rest.2)

/-- The cursor invariant of a `Sequence`: `lindex ∈ [0, length]`. -/
def Sequence.WF (s : Sequence) : Prop :=
  0 ≤ s.lindex ∧ s.lindex ≤ (s.list.length : Int)

instance (s : Sequence) : Decidable s.WF := by
  unfold Sequence.WF; infer_instance

/-- A pointer event delivered to one pad's tag, as scanned in main.go lines
189-197: only `Press` and `Release` change the selection; any other pointer
event type is ignored by the scan. -/
inductive PEvent
  | press
  | release
  | other
deriving Repr, DecidableEq

/-- The input carried by one `system.FrameEvent`: the pointer events pending
for each of the 4 pad tags (`gtx.Events(pad.label)`), and the state of the
external audio collaborator.  `audioPlaying` is modelled from the spec: the
audio source file of the repository is not under src/, so the flag consulted
at line 203 is treated as an input supplied by the audio collaborator. -/
structure FrameInput where
  ptr : Fin 4 → List PEvent
  audioPlaying : Bool

/-- Host-visible effects emitted by the loop body and the timer callbacks:
scheduling a delayed callback (`time.AfterFunc`), playing audio, logging the
final score, and window invalidate/close requests. -/
inductive Eff
  | scheduleTick
  | scheduleFail
  | scheduleReset
  | scheduleClose
  | audio (i : Int)
  | report (n : Int)
  | buzz
  | invalidate
  | closeWindow
deriving Repr, DecidableEq

/-- The mutable state of `loop` (main.go lines 146-151) together with the
package-level `sequence` global: `simonPlay`, `terminating`, `selected`, and
`sequence`.  The four `pending` counters instrument the number of outstanding
`time.AfterFunc` callbacks of each kind, so that a timer-fired event is only
admissible when such a callback was actually scheduled. -/
structure LoopState where
  seq : Sequence
  simonPlay : Bool
  terminating : Bool
  selected : Int
  pendingTicks : Nat
  pendingFails : Nat
  pendingCloses : Nat
  pendingResets : Nat
deriving Repr, DecidableEq

/-- One pad's body inside `grid.Layout` (main.go lines 179-216), acting on the
accumulator (user, selected, effects): when the machine is not playing, a
nonnegative `selected` (keyboard) is copied to `user` without scanning pointer
events; otherwise the pad's pointer events are scanned (press picks this pad,
release clears) and `selected` is set to the result.  Then the audio cue fires
when this pad is the selected one and no audio is already playing. -/
def padIter (simonPlay audioPlaying : Bool) (events : Fin 4 → List PEvent)
    (acc : (Int × Int) × List Eff) (i : Fin 4) : (Int × Int) × List Eff :=
  let user := acc.1.1
  let selected := acc.1.2
  let us :=
    if simonPlay = false then
      if 0 ≤ selected then (selected, selected)
      else
        let u := (events i).foldl
          (fun u ev =>
            match ev with
            | PEvent.press => (i.val : Int)
            | PEvent.release => -1
            | PEvent.other => u)
          user
        (u, u)
    else (user, selected)
  let effs :=
    if us.2 = (i.val : Int) ∧ audioPlaying = false then acc.2 ++ [Eff.audio us.2]
    else acc.2
  (us, effs)

/-- The full `grid.Layout` pass over the 4 pads in order (main.go lines
179-216), starting from `user = -1` and the current `selected`. -/
def padsLoop (simonPlay audioPlaying : Bool) (events : Fin 4 → List PEvent)
    (selected0 : Int) : (Int × Int) × List Eff :=
  (List.finRange 4).foldl (padIter simonPlay audioPlaying events) ((-1, selected0), [])

/-- The body of `case system.FrameEvent` (main.go lines 159-268).
`disabled` captures `gtx.Disabled()` decided at line 161 before `simonPlay`
may change: a disabled context delivers no pointer events.  Part A is the
machine playback block (165-175), then the pads pass (179-216), then the
judging block (218-245), and finally `selected = -1` (line 268). -/
def frameStep (s0 : LoopState) (inp : FrameInput) : LoopState × List Eff :=
  let disabled := s0.simonPlay || s0.terminating
  let pa :=
    if s0.simonPlay then
      let r := s0.seq.Next
      if 0 ≤ r.1 then
        ({ s0 with seq := r.2, selected := r.1, pendingTicks := s0.pendingTicks + 1 },
         [Eff.scheduleTick])
      else
        ({ s0 with seq := (r.2).Reset false 0, simonPlay := false }, [])
    else (s0, [])
  let s1 := pa.1
  let events : Fin 4 → List PEvent := fun i => if disabled then [] else inp.ptr i
  let pl := padsLoop s1.simonPlay inp.audioPlaying events s1.selected
  let user := pl.1.1
  let s2 := { s1 with selected := pl.1.2 }
  let pc :=
    if s2.simonPlay = false ∧ 0 ≤ user then
      let r := s2.seq.Next
      let simon := r.1
      let s2a := { s2 with seq := r.2 }
      let pf :=
        if 0 ≤ simon ∧ simon ≠ user then
          ({ s2a with terminating := true, pendingFails := s2a.pendingFails + 1 },
           [Eff.scheduleFail])
        else (s2a, [])
      if pf.1.terminating = false ∧ pf.1.seq.HasNext = false then
        ({ pf.1 with pendingResets := pf.1.pendingResets + 1 }, pf.2 ++ [Eff.scheduleReset])
      else pf
    else (s2, [])
  ({ pc.1 with selected := -1 }, pa.2 ++ pl.2 ++ pc.2)

/-- The callback scheduled at line 169: `w.Invalidate` — no game state is
touched, only a redraw request. -/
def tickCallback (s : LoopState) : LoopState × List Eff :=
  (s, [Eff.invalidate])

/-- The callback scheduled at line 227 on a mismatch (lines 227-234): log the
longest correct sequence (`sequence.Len()-1`), play the buzz cue, and schedule
the window close after `resetTime`.  No game state is mutated. -/
def failCallback (s : LoopState) : LoopState × List Eff :=
  (s, [Eff.report (s.seq.Len - 1), Eff.buzz, Eff.scheduleClose])

/-- The callback scheduled at line 231: `w.Close()`. -/
def closeCallback (s : LoopState) : LoopState × List Eff :=
  (s, [Eff.closeWindow])

/-- The callback scheduled at line 238 after a fully reproduced round (lines
238-243): it sets `simonPlay = true`, calls `sequence.Reset(true)` — drawing
`r = rand.Intn(maxval)` — and invalidates the window.  Note that this body
runs in the timer's own context and mutates the shared game state directly. -/
def roundResetCallback (r : Int) (s : LoopState) : LoopState × List Eff :=
  ({ s with simonPlay := true, seq := s.seq.Reset true r }, [Eff.invalidate])

/-- The key identities distinguished by the `key.Event` handler (lines
270-285): the digit keys "1".."4", the quit keys "X"/"Q", anything else. -/
inductive KeyName
  | digit (d : Fin 4)
  | quit
  | other
deriving Repr, DecidableEq

/-- One event consumed by the loop: a frame, a key press or key release, or
the firing of one of the four kinds of scheduled callbacks.  A `resetFired`
carries the random draw its `Reset(true)` call obtains from `rand.Intn`. -/
inductive Ev
  | frame (inp : FrameInput)
  | keyDown (k : KeyName)
  | keyUp
  | tickFired
  | failFired
  | closeFired
  | resetFired (r : Int)

/-- One dispatch of the `select`-style event switch of `loop` (lines 153-286),
restricted to its game-state effect.  Timer-fired events are admissible (`some`)
only when a callback of that kind is outstanding, and a `resetFired` draw must
be a value `rand.Intn(maxval)` can return. -/
def step (s : LoopState) : Ev → Option LoopState
  | Ev.frame inp => some (frameStep s inp).1
  | Ev.keyDown (KeyName.digit d) =>
      if s.simonPlay = false then some { s with selected := (d.val : Int) } else some s
  | Ev.keyDown KeyName.quit => some s
  | Ev.keyDown KeyName.other => some s
  | Ev.keyUp => some { s with selected := -1 }
  | Ev.tickFired =>
      if s.pendingTicks = 0 then none
      else some { (tickCallback s).1 with pendingTicks := s.pendingTicks - 1 }
  | Ev.failFired =>
      if s.pendingFails = 0 then none
      else some { (failCallback s).1 with
                    pendingFails := s.pendingFails - 1,
                    pendingCloses := s.pendingCloses + 1 }
  | Ev.closeFired =>
      if s.pendingCloses = 0 then none
      else some { (closeCallback s).1 with pendingCloses := s.pendingCloses - 1 }
  | Ev.resetFired r =>
      if s.pendingResets = 0 ∨ r < 0 ∨ s.seq.maxval ≤ r then none
      else some { (roundResetCallback r s).1 with pendingResets := s.pendingResets - 1 }

/-- Run the loop over a list of events. -/
def loopRun (s : LoopState) : List Ev → Option LoopState
  | [] => some s
  | e :: es =>
    match step s e with
    | none => none
    | some s' => loopRun s' es

/-- The state right after `loop` starts (lines 146-151): the global
`sequence = Sequence{maxval: 4}` after the initial `sequence.Reset(true)` with
draw `d0`, `simonPlay = true`, `terminating = false`, `selected = -1`, and no
callbacks outstanding. -/
def initState (d0 : Int) : LoopState :=
  { seq := (Sequence.mk [] 0 4).Reset true d0
    simonPlay := true
    terminating := false
    selected := -1
    pendingTicks := 0
    pendingFails := 0
    pendingCloses := 0
    pendingResets := 0 }

/-- A frame that delivers no pointer events (e.g. a resize or invalidate
redraw). -/
def emptyInput : FrameInput :=
  { ptr := fun _ => [], audioPlaying := false }

/-- The pointer events of a frame in which the player pressed pad `v`. -/
def padEvents (v : Int) : Fin 4 → List PEvent :=
  fun j => if (j.val : Int) = v then [PEvent.press] else []

/-- A frame in which the player pressed pad `v`. -/
def pressInput (v : Int) : FrameInput :=
  { ptr := padEvents v, audioPlaying := false }

/-- The machine-playback phase of a round: one invalidate-driven frame per
symbol, each followed by the firing of the tick it scheduled. -/
def playbackEvents : Nat → List Ev
  | 0 => []
  | n + 1 => Ev.frame emptyInput :: Ev.tickFired :: playbackEvents n

/-- The player phase of a clean round: one press frame per stored symbol, each
pressing exactly the expected pad. -/
def reproduceEvents (l : List Int) : List Ev :=
  l.map (fun v => Ev.frame (pressInput v))

/-- One clean successful round starting from sequence `l`: full machine
playback, the exhaustion frame that hands over to the player, a correct
reproduction of every symbol, then the firing of the one scheduled
round-reset callback with draw `r`. -/
def roundEvents (l : List Int) (r : Int) : List Ev :=
  playbackEvents l.length ++ [Ev.frame emptyInput] ++ reproduceEvents l ++ [Ev.resetFired r]

/-- A whole clean game: successive clean rounds consuming the draws `rs`,
starting from accumulated sequence `l`. -/
def gameEvents (l : List Int) : List Int → List Ev
  | [] => []
  | r :: rs => roundEvents l r ++ gameEvents (l ++ [r]) rs

/-- The state at the start of a round: the machine about to play sequence `l`
from the top, no callbacks outstanding. -/
def roundStart (l : List Int) : LoopState :=
  { seq := Sequence.mk l 0 4
    simonPlay := true
    terminating := false
    selected := -1
    pendingTicks := 0
    pendingFails := 0
    pendingCloses := 0
    pendingResets := 0 }

/-- A trace refuting the one-append-per-round rule: round 1 (sequence `[2]`)
is played back and correctly reproduced, which schedules the round-reset
callback; then one extra click during the reset wait window reaches the
judging block with an exhausted sequence and schedules a second round-reset
callback; both callbacks then fire, each appending a symbol. -/
def doubleResetEvents : List Ev :=
  [Ev.frame emptyInput, Ev.tickFired, Ev.frame emptyInput,
   Ev.frame (pressInput 2), Ev.frame (pressInput 0),
   Ev.resetFired 1, Ev.resetFired 3]

/-! ### Sequence-level lemmas -/

/-- Replay from cursor position `jn`: the remaining `k = length - jn` calls to
`Next` return exactly the stored suffix `l.drop jn`. -/
lemma nexts_replay (l : List Int) (m : Int) :
    ∀ (k jn : Nat), jn + k = l.length →
      (Sequence.nexts ⟨l, (jn : Int), m⟩ k).1 = l.drop jn := by
  intro k
  induction k with
  | zero =>
    intro jn h
    have hj : jn = l.length := by omega
    subst hj
    simp [Sequence.nexts]
  | succ k ih =>
    intro jn h
    have hlt : jn < l.length := by omega
    have hne : ¬ ((jn : Int) = (l.length : Int)) := by
      exact_mod_cast Nat.ne_of_lt hlt
    have hcast : ((jn : Int) + 1) = ((jn + 1 : Nat) : Int) := by push_cast; ring
    have hrec := ih (jn + 1) (by omega)
    simp only [Sequence.nexts, Sequence.Next, hne, if_false, Int.toNat_natCast]
    rw [hcast, hrec, List.getD_eq_getElem _ _ hlt, List.drop_eq_getElem_cons hlt]

/-- C2: for every `Sequence` state, `Reset(growing=false)` followed by `Len()`
calls to `Next()` returns exactly the stored symbols in insertion order
(round-trip replay law).  `Len()` is the stored list's length. -/
theorem sequence_replay_roundtrip (s : Sequence) :
    ((s.Reset false 0).nexts s.list.length).1 = s.list
    ∧ s.Len = (s.list.length : Int) := by
  obtain ⟨l, j, m⟩ := s
  refine ⟨?_, rfl⟩
  have h := nexts_replay l m l.length 0 (by omega)
  simpa [Sequence.Reset] using h

/-- C3: `Next()` returns the -1 sentinel exactly when the cursor equals the
length, equivalently exactly when `HasNext()` is false; otherwise it returns
the symbol at the cursor (a valid symbol, not the sentinel) and advances the
cursor by one, leaving the list unchanged. -/
theorem sequence_next_sentinel_iff (s : Sequence)
    (hwf : s.WF) (hval : ∀ x ∈ s.list, 0 ≤ x) :
    ((s.Next).1 = -1 ↔ s.lindex = (s.list.length : Int))
    ∧ (s.HasNext = false ↔ (s.Next).1 = -1)
    ∧ (s.lindex < (s.list.length : Int) →
        (s.Next).1 = s.list.getD s.lindex.toNat 0
        ∧ 0 ≤ (s.Next).1
        ∧ (s.Next).2.lindex = s.lindex + 1
        ∧ (s.Next).2.list = s.list) := by
  obtain ⟨hl, hu⟩ := hwf
  by_cases hend : s.lindex = (s.list.length : Int)
  · refine ⟨by simp [Sequence.Next, hend], by simp [Sequence.Next, Sequence.HasNext, hend], ?_⟩
    intro hlt
    exfalso
    omega
  · have hlt : s.lindex < (s.list.length : Int) := lt_of_le_of_ne hu hend
    have htn : s.lindex.toNat < s.list.length := by omega
    have hmem : s.list.getD s.lindex.toNat 0 ∈ s.list := by
      rw [List.getD_eq_getElem _ _ htn]
      exact s.list.getElem_mem htn
    have hge : 0 ≤ s.list.getD s.lindex.toNat 0 := hval _ hmem
    have hnext : s.Next = (s.list.getD s.lindex.toNat 0, { s with lindex := s.lindex + 1 }) := by
      simp [Sequence.Next, hend]
    refine ⟨?_, ?_, ?_⟩
    · rw [hnext]
      constructor
      · intro habs
        have habs' : s.list.getD s.lindex.toNat 0 = -1 := habs
        omega
      · intro habs
        exact absurd habs hend
    · rw [hnext]
      simp only [Sequence.HasNext, decide_eq_false_iff_not, not_lt]
      constructor
      · intro habs
        show s.list.getD s.lindex.toNat 0 = -1
        omega
      · intro habs
        have habs' : s.list.getD s.lindex.toNat 0 = -1 := habs
        omega
    · intro _
      rw [hnext]
      exact ⟨rfl, hge, rfl, rfl⟩

/-- C3 witness: the theorem applied to the concrete mid-replay state
with list `[2, 0]` and cursor 1. -/
theorem sequence_next_sentinel_iff_witness :
    (((Sequence.mk [2, 0] 1 4).Next).1 = -1 ↔
        (Sequence.mk [2, 0] 1 4).lindex = (((Sequence.mk [2, 0] 1 4).list.length : Nat) : Int))
    ∧ ((Sequence.mk [2, 0] 1 4).HasNext = false ↔ ((Sequence.mk [2, 0] 1 4).Next).1 = -1)
    ∧ ((Sequence.mk [2, 0] 1 4).lindex < (((Sequence.mk [2, 0] 1 4).list.length : Nat) : Int) →
        ((Sequence.mk [2, 0] 1 4).Next).1 =
          (Sequence.mk [2, 0] 1 4).list.getD (Sequence.mk [2, 0] 1 4).lindex.toNat 0
        ∧ 0 ≤ ((Sequence.mk [2, 0] 1 4).Next).1
        ∧ ((Sequence.mk [2, 0] 1 4).Next).2.lindex = (Sequence.mk [2, 0] 1 4).lindex + 1
        ∧ ((Sequence.mk [2, 0] 1 4).Next).2.list = (Sequence.mk [2, 0] 1 4).list) :=
  sequence_next_sentinel_iff (Sequence.mk [2, 0] 1 4) (by decide) (by decide)

/-- C4: `Reset(growing)` sets the cursor to 0; growing appends exactly the one
drawn symbol `r`, non-growing leaves the list unchanged; every symbol of the
grown list is an old symbol or lies in `[0, maxval)` (with `maxval = 4` in
this program); `maxval` is preserved.  `Reset` is a total function: it has no
failure case.  The hypotheses are the `rand.Intn` contract for the draw. -/
theorem sequence_reset_spec (s : Sequence) (add : Bool) (r : Int)
    (h0 : 0 ≤ r) (h1 : r < s.maxval) :
    (s.Reset add r).lindex = 0
    ∧ (s.Reset true r).list = s.list ++ [r]
    ∧ (s.Reset false r).list = s.list
    ∧ (∀ x ∈ (s.Reset true r).list, x ∈ s.list ∨ (0 ≤ x ∧ x < s.maxval))
    ∧ (s.Reset add r).maxval = s.maxval := by
  refine ⟨?_, rfl, rfl, ?_, ?_⟩
  · cases add <;> simp [Sequence.Reset]
  · intro x hx
    simp only [Sequence.Reset, if_true] at hx
    rcases List.mem_append.mp hx with h | h
    · exact Or.inl h
    · simp at h
      subst h
      exact Or.inr ⟨h0, h1⟩
  · cases add <;> simp [Sequence.Reset]

/-- C4 witness: the theorem applied to the state with list `[2]`, cursor 1,
growing reset with draw 3. -/
theorem sequence_reset_spec_witness :
    ((Sequence.mk [2] 1 4).Reset true 3).lindex = 0
    ∧ ((Sequence.mk [2] 1 4).Reset true 3).list = (Sequence.mk [2] 1 4).list ++ [3]
    ∧ ((Sequence.mk [2] 1 4).Reset false 3).list = (Sequence.mk [2] 1 4).list
    ∧ (∀ x ∈ ((Sequence.mk [2] 1 4).Reset true 3).list,
        x ∈ (Sequence.mk [2] 1 4).list ∨ (0 ≤ x ∧ x < (Sequence.mk [2] 1 4).maxval))
    ∧ ((Sequence.mk [2] 1 4).Reset true 3).maxval = (Sequence.mk [2] 1 4).maxval :=
  sequence_reset_spec (Sequence.mk [2] 1 4) true 3 (by decide) (by decide)

/-- C7: every mutating `Sequence` operation preserves the cursor invariant
`0 ≤ lindex ≤ length`, and the stored list never shrinks: `Reset` can only
append and `Next` leaves the list unchanged.  `HasNext` and `Len` are pure
observers (they return no state), so they trivially preserve both. -/
theorem sequence_cursor_invariant (s : Sequence) (add : Bool) (r : Int)
    (hwf : s.WF) :
    (s.Reset add r).WF
    ∧ (s.Next).2.WF
    ∧ s.list.length ≤ (s.Reset add r).list.length
    ∧ (s.Next).2.list = s.list
    ∧ s.Len ≤ (s.Reset add r).Len
    ∧ (s.Next).2.Len = s.Len := by
  obtain ⟨hl, hu⟩ := hwf
  by_cases hend : s.lindex = (s.list.length : Int) <;>
    cases add <;>
      simp [Sequence.Reset, Sequence.Next, Sequence.WF, Sequence.Len, hend] <;>
      omega

/-- C7 witness: the theorem applied to the state with list `[2, 0]`, cursor 1,
growing reset with draw 0. -/
theorem sequence_cursor_invariant_witness :
    ((Sequence.mk [2, 0] 1 4).Reset true 0).WF
    ∧ ((Sequence.mk [2, 0] 1 4).Next).2.WF
    ∧ (Sequence.mk [2, 0] 1 4).list.length ≤ ((Sequence.mk [2, 0] 1 4).Reset true 0).list.length
    ∧ ((Sequence.mk [2, 0] 1 4).Next).2.list = (Sequence.mk [2, 0] 1 4).list
    ∧ (Sequence.mk [2, 0] 1 4).Len ≤ ((Sequence.mk [2, 0] 1 4).Reset true 0).Len
    ∧ ((Sequence.mk [2, 0] 1 4).Next).2.Len = (Sequence.mk [2, 0] 1 4).Len :=
  sequence_cursor_invariant (Sequence.mk [2, 0] 1 4) true 0 (by decide)

/-- C10: on an exhausted sequence (cursor = length) `Next()` returns the -1
sentinel and changes nothing, so repeated calls are no-ops; and when every
stored symbol is in `[0, 4)` (as every draw of this program is), the sentinel
-1 never collides with a stored symbol. -/
theorem next_exhausted_noop (s : Sequence)
    (hend : s.lindex = (s.list.length : Int))
    (hval : ∀ x ∈ s.list, 0 ≤ x ∧ x < 4) :
    s.Next = (-1, s)
    ∧ (s.Next).2.Next = (-1, s)
    ∧ (-1 : Int) ∉ s.list := by
  have h1 : s.Next = (-1, s) := by
    simp [Sequence.Next, hend]
  refine ⟨h1, ?_, ?_⟩
  · rw [h1]
    exact h1
  · intro hmem
    have := hval _ hmem
    omega

/-- C10 witness: the theorem applied to the exhausted state with list `[2, 0]`
and cursor 2. -/
theorem next_exhausted_noop_witness :
    (Sequence.mk [2, 0] 2 4).Next = (-1, Sequence.mk [2, 0] 2 4)
    ∧ ((Sequence.mk [2, 0] 2 4).Next).2.Next = (-1, Sequence.mk [2, 0] 2 4)
    ∧ (-1 : Int) ∉ (Sequence.mk [2, 0] 2 4).list :=
  next_exhausted_noop (Sequence.mk [2, 0] 2 4) (by decide) (by decide)

/-! ### Pads-pass lemmas -/

/-- During machine playback the pads pass never changes (user, selected). -/
lemma foldl_padIter_simon (ap : Bool) (evs : Fin 4 → List PEvent) :
    ∀ (l : List (Fin 4)) (acc : (Int × Int) × List Eff),
      (l.foldl (padIter true ap evs) acc).1 = acc.1 := by
  intro l
  induction l with
  | nil => intro acc; rfl
  | cons i t ih =>
    intro acc
    rw [List.foldl_cons, ih]
    simp [padIter]

/-- During machine playback `padsLoop` returns `user = -1` and the unchanged
selection. -/
lemma padsLoop_simon (ap : Bool) (evs : Fin 4 → List PEvent) (sel : Int) :
    (padsLoop true ap evs sel).1 = (-1, sel) := by
  unfold padsLoop
  rw [foldl_padIter_simon]

/-- With a live keyboard selection, every pad iteration copies it to `user`
and never consults the pointer events. -/
lemma foldl_padIter_kb (ap : Bool) (evs : Fin 4 → List PEvent) (sel : Int)
    (hsel : 0 ≤ sel) :
    ∀ (l : List (Fin 4)) (acc : (Int × Int) × List Eff), acc.1.2 = sel →
      ((l.foldl (padIter false ap evs) acc).1.2 = sel
       ∧ (l ≠ [] → (l.foldl (padIter false ap evs) acc).1.1 = sel)) := by
  intro l
  induction l with
  | nil =>
    intro acc hacc
    exact ⟨hacc, fun h => absurd rfl h⟩
  | cons i t ih =>
    intro acc hacc
    rw [List.foldl_cons]
    have hstep : (padIter false ap evs acc i).1 = (sel, sel) := by
      simp [padIter, hacc, hsel]
    have ht := ih (padIter false ap evs acc i) (by rw [hstep])
    refine ⟨ht.1, fun _ => ?_⟩
    cases t with
    | nil => simpa using congrArg Prod.fst hstep
    | cons j t' => exact ht.2 (by simp)

/-- With a live keyboard selection the pads pass yields
`(user, selected) = (sel, sel)`, whatever the pointer events are. -/
lemma padsLoop_kb (ap : Bool) (evs : Fin 4 → List PEvent) (sel : Int)
    (hsel : 0 ≤ sel) :
    (padsLoop false ap evs sel).1 = (sel, sel) := by
  have h := foldl_padIter_kb ap evs sel hsel (List.finRange 4) ((-1, sel), []) rfl
  have hne : List.finRange 4 ≠ [] := by decide
  have h1 := h.1
  have h2 := h.2 hne
  unfold padsLoop
  exact Prod.ext h2 h1

/-- With a live keyboard selection the whole pads pass (effects included) is
independent of the pointer events: the keyboard short-circuits the scan. -/
lemma foldl_padIter_kb_events (ap : Bool) (evs evs' : Fin 4 → List PEvent)
    (sel : Int) (hsel : 0 ≤ sel) :
    ∀ (l : List (Fin 4)) (acc : (Int × Int) × List Eff), acc.1.2 = sel →
      l.foldl (padIter false ap evs) acc = l.foldl (padIter false ap evs') acc := by
  intro l
  induction l with
  | nil => intro acc _; rfl
  | cons i t ih =>
    intro acc hacc
    rw [List.foldl_cons, List.foldl_cons]
    have h1 : padIter false ap evs acc i = padIter false ap evs' acc i := by
      simp [padIter, hacc, hsel]
    rw [h1]
    exact ih _ (by simp [padIter, hacc, hsel])

/-- Scanning a pad's pointer events that contain no press, starting from
`user = -1`, leaves `user = -1`. -/
lemma scan_noPress (i : Fin 4) (evs : List PEvent) (h : PEvent.press ∉ evs) :
    evs.foldl
      (fun u ev =>
        match ev with
        | PEvent.press => (i.val : Int)
        | PEvent.release => -1
        | PEvent.other => u)
      (-1) = -1 := by
  induction evs with
  | nil => rfl
  | cons e t ih =>
    have hne : e ≠ PEvent.press := fun habs => h (habs ▸ List.mem_cons_self e t)
    have ht : PEvent.press ∉ t := fun habs => h (List.mem_cons_of_mem e habs)
    cases e with
    | press => exact absurd rfl hne
    | release => exact ih ht
    | other => exact ih ht

/-- Without any press event and without a live keyboard selection, the pads
pass keeps `user = -1` and a negative selection. -/
lemma foldl_padIter_noPress (ap : Bool) (evs : Fin 4 → List PEvent)
    (hnp : ∀ i, PEvent.press ∉ evs i) :
    ∀ (l : List (Fin 4)) (acc : (Int × Int) × List Eff),
      acc.1.1 = -1 → acc.1.2 < 0 →
      ((l.foldl (padIter false ap evs) acc).1.1 = -1
       ∧ (l.foldl (padIter false ap evs) acc).1.2 < 0) := by
  intro l
  induction l with
  | nil => intro acc h1 h2; exact ⟨h1, h2⟩
  | cons i t ih =>
    intro acc h1 h2
    rw [List.foldl_cons]
    have hns : ¬ (0 ≤ acc.1.2) := by omega
    have hstep : (padIter false ap evs acc i).1 = (-1, -1) := by
      simp only [padIter, if_pos rfl, if_neg hns, h1]
      rw [scan_noPress i (evs i) (hnp i)]
      simp
    exact ih _ (by rw [hstep]) (by rw [hstep]; decide)

/-- A frame whose only pointer event is a press on pad `v`, with no live
keyboard selection, makes `v` the selected/judged symbol. -/
lemma padsLoop_press (ap : Bool) (sel v : Int) (hns : sel < 0) (h0 : 0 ≤ v) (h4 : v < 4) :
    (padsLoop false ap (padEvents v) sel).1 = (v, v) := by
  have hns' : ¬ (0 ≤ sel) := by omega
  interval_cases v <;>
    cases ap <;>
      simp [padsLoop, padEvents, padIter, hns', List.finRange, List.foldl]

/-- Without any press event and without a live keyboard selection, the pads
pass reports no user selection. -/
lemma padsLoop_noPress (ap : Bool) (evs : Fin 4 → List PEvent) (sel : Int)
    (hsel : sel < 0) (hnp : ∀ i, PEvent.press ∉ evs i) :
    (padsLoop false ap evs sel).1.1 = -1 ∧ (padsLoop false ap evs sel).1.2 < 0 := by
  unfold padsLoop
  exact foldl_padIter_noPress ap evs hnp (List.finRange 4) ((-1, sel), []) rfl hsel

/-- A frame during machine playback with symbols remaining: the cursor
advances by one, a tick is scheduled, and `selected` ends the frame cleared. -/
lemma frameStep_playback (s : LoopState) (inp : FrameInput)
    (hplay : s.simonPlay = true)
    (hne : s.seq.lindex ≠ (s.seq.list.length : Int))
    (hpos : 0 ≤ s.seq.list.getD s.seq.lindex.toNat 0) :
    (frameStep s inp).1 =
      { s with seq := { s.seq with lindex := s.seq.lindex + 1 },
               selected := -1,
               pendingTicks := s.pendingTicks + 1 } := by
  obtain ⟨⟨l, j, m⟩, sp, tm, sel, a, b, c, d⟩ := s
  simp only at hplay hne hpos ⊢
  subst hplay
  have hnx : (Sequence.mk l j m).Next = (l.getD j.toNat 0, Sequence.mk l (j + 1) m) := by
    simp [Sequence.Next, hne]
  have hpos' : 0 ≤ l[j.toNat]?.getD 0 := by simpa using hpos
  simp [frameStep, hnx, hpos', padsLoop_simon]

/-- The playback-exhaustion frame: `Next` returns the sentinel, so the machine
hands over to the player, rewinding the cursor with `Reset(false)`. -/
lemma frameStep_exhaust (s : LoopState) (inp : FrameInput)
    (hplay : s.simonPlay = true)
    (hend : s.seq.lindex = (s.seq.list.length : Int))
    (hsel : s.selected < 0) :
    (frameStep s inp).1 =
      { s with seq := { s.seq with lindex := 0 }, simonPlay := false, selected := -1 } := by
  obtain ⟨⟨l, j, m⟩, sp, tm, sel, a, b, c, d⟩ := s
  simp only at hplay hend hsel ⊢
  subst hplay
  have hnx : (Sequence.mk l j m).Next = (-1, Sequence.mk l j m) := by
    simp [Sequence.Next, hend]
  have hpads := padsLoop_noPress inp.audioPlaying (fun _ => []) sel hsel (by intro i; simp)
  simp [frameStep, hnx, Sequence.Reset, hpads.1]

/-- A player frame pressing exactly the expected pad: the judge consumes one
`Next`, matches, and schedules the round reset exactly when the sequence is
now exhausted. -/
lemma frameStep_press_match (s : LoopState) (v : Int)
    (hplay : s.simonPlay = false) (hterm : s.terminating = false)
    (hsel : s.selected < 0) (h0 : 0 ≤ v) (h4 : v < 4)
    (hne : s.seq.lindex ≠ (s.seq.list.length : Int))
    (hmatch : s.seq.list.getD s.seq.lindex.toNat 0 = v) :
    (frameStep s (pressInput v)).1 =
      { s with seq := { s.seq with lindex := s.seq.lindex + 1 },
               selected := -1,
               pendingResets :=
                 if s.seq.lindex + 1 < (s.seq.list.length : Int) then s.pendingResets
                 else s.pendingResets + 1 } := by
  obtain ⟨⟨l, j, m⟩, sp, tm, sel, a, b, c, d⟩ := s
  simp only at hplay hterm hsel hne hmatch ⊢
  subst hplay
  subst hterm
  have hnx : (Sequence.mk l j m).Next = (l.getD j.toNat 0, Sequence.mk l (j + 1) m) := by
    simp [Sequence.Next, hne]
  have hpl : (padsLoop false false (fun i => padEvents v i) sel).1 = (v, v) :=
    padsLoop_press false sel v hsel h0 h4
  have hmatch' : l[j.toNat]?.getD 0 = v := by simpa using hmatch
  by_cases hlt2 : j + 1 < (l.length : Int)
  · have hhn : (Sequence.mk l (j + 1) m).HasNext = true := by
      simp [Sequence.HasNext, hlt2]
    simp [frameStep, hnx, pressInput, hpl, hmatch', h0, hhn, hlt2]
  · have hhn : (Sequence.mk l (j + 1) m).HasNext = false := by
      simp [Sequence.HasNext]
      omega
    simp [frameStep, hnx, pressInput, hpl, hmatch', h0, hhn, hlt2]

/-- Dispatching a frame event is exactly `frameStep`. -/
lemma step_frame (s : LoopState) (inp : FrameInput) :
    step s (Ev.frame inp) = some (frameStep s inp).1 := rfl

/-- A scheduled playback tick fires: it only decrements the outstanding-tick
count (the callback itself is a pure `Invalidate`). -/
lemma step_tick (s : LoopState) (h : s.pendingTicks ≠ 0) :
    step s Ev.tickFired = some { s with pendingTicks := s.pendingTicks - 1 } := by
  simp [step, tickCallback, h]

/-- A scheduled round-reset callback fires with draw `r`: the machine resumes
playing and the sequence grows by the one drawn symbol. -/
lemma step_reset (s : LoopState) (r : Int) (h : s.pendingResets ≠ 0)
    (h0 : 0 ≤ r) (h4 : r < s.seq.maxval) :
    step s (Ev.resetFired r) =
      some { s with simonPlay := true, seq := s.seq.Reset true r,
                    pendingResets := s.pendingResets - 1 } := by
  have hc : ¬ (s.pendingResets = 0 ∨ r < 0 ∨ s.seq.maxval ≤ r) := by
    push_neg
    exact ⟨h, h0, h4⟩
  simp [step, roundResetCallback, hc]

/-- Unfold one admissible event of a run. -/
lemma loopRun_cons_some (s s' : LoopState) (e : Ev) (es : List Ev)
    (h : step s e = some s') : loopRun s (e :: es) = loopRun s' es := by
  simp [loopRun, h]

/-- Runs compose over list append. -/
lemma loopRun_append (s : LoopState) (a b : List Ev) :
    loopRun s (a ++ b) = (loopRun s a).bind (fun s' => loopRun s' b) := by
  induction a generalizing s with
  | nil => simp [loopRun]
  | cons e t ih =>
    cases h : step s e with
    | none => simp [loopRun, h]
    | some s' => simp [loopRun, h, ih]

/-- The machine playback phase of a round: starting at cursor `jn`, the
remaining symbol frames (each with its tick) walk the cursor to the end and
change nothing else. -/
lemma playback_phase (l : List Int) (m : Int) (hval : ∀ x ∈ l, 0 ≤ x) :
    ∀ (k jn : Nat) (tm : Bool) (t f c p : Nat), jn + k = l.length →
      loopRun ⟨⟨l, (jn : Int), m⟩, true, tm, -1, t, f, c, p⟩ (playbackEvents k)
        = some ⟨⟨l, (l.length : Int), m⟩, true, tm, -1, t, f, c, p⟩ := by
  intro k
  induction k with
  | zero =>
    intro jn tm t f c p h
    have hj : jn = l.length := by omega
    subst hj
    simp [loopRun, playbackEvents]
  | succ k ih =>
    intro jn tm t f c p h
    have hlt : jn < l.length := by omega
    have hne : ((jn : Int)) ≠ (l.length : Int) := by
      exact_mod_cast Nat.ne_of_lt hlt
    have hmem : l.getD jn 0 ∈ l := by
      rw [List.getD_eq_getElem _ _ hlt]
      exact l.getElem_mem hlt
    have hpos : 0 ≤ l.getD jn 0 := hval _ hmem
    have h1 := frameStep_playback ⟨⟨l, (jn : Int), m⟩, true, tm, -1, t, f, c, p⟩
      emptyInput rfl hne (by simpa using hpos)
    have hs1 : step ⟨⟨l, (jn : Int), m⟩, true, tm, -1, t, f, c, p⟩ (Ev.frame emptyInput)
        = some ⟨⟨l, (jn : Int) + 1, m⟩, true, tm, -1, t + 1, f, c, p⟩ := by
      rw [step_frame, h1]
    have hs2 : step ⟨⟨l, (jn : Int) + 1, m⟩, true, tm, -1, t + 1, f, c, p⟩ Ev.tickFired
        = some ⟨⟨l, (jn : Int) + 1, m⟩, true, tm, -1, t, f, c, p⟩ := by
      rw [step_tick _ (by simp)]
      rfl
    rw [playbackEvents, loopRun_cons_some _ _ _ _ hs1, loopRun_cons_some _ _ _ _ hs2]
    have hcast : ((jn : Int) + 1) = ((jn + 1 : Nat) : Int) := by push_cast; ring
    rw [hcast]
    exact ih (jn + 1) tm t f c p (by omega)

/-- The player phase of a clean round: pressing the expected pad for every
remaining symbol walks the cursor to the end and schedules exactly one round
reset (none if there was nothing left to reproduce). -/
lemma reproduce_phase (l : List Int) (m : Int) (hval : ∀ x ∈ l, 0 ≤ x ∧ x < 4) :
    ∀ (k jn : Nat) (t f c p : Nat), jn + k = l.length →
      loopRun ⟨⟨l, (jn : Int), m⟩, false, false, -1, t, f, c, p⟩
          (reproduceEvents (l.drop jn))
        = some ⟨⟨l, (l.length : Int), m⟩, false, false, -1, t, f, c,
                 if jn = l.length then p else p + 1⟩ := by
  intro k
  induction k with
  | zero =>
    intro jn t f c p h
    have hj : jn = l.length := by omega
    subst hj
    simp [loopRun, reproduceEvents]
  | succ k ih =>
    intro jn t f c p h
    have hlt : jn < l.length := by omega
    have hne : ((jn : Int)) ≠ (l.length : Int) := by
      exact_mod_cast Nat.ne_of_lt hlt
    have hv := hval (l[jn]) (l.getElem_mem hlt)
    have hmatch : l.getD ((jn : Int)).toNat 0 = l[jn] := by
      rw [Int.toNat_natCast, List.getD_eq_getElem _ _ hlt]
    have h1 := frameStep_press_match ⟨⟨l, (jn : Int), m⟩, false, false, -1, t, f, c, p⟩
      (l[jn]) rfl rfl (by norm_num) hv.1 hv.2 hne hmatch
    have hdrop : l.drop jn = l[jn] :: l.drop (jn + 1) := List.drop_eq_getElem_cons hlt
    rw [hdrop]
    simp only [reproduceEvents, List.map_cons]
    have hs1 : step ⟨⟨l, (jn : Int), m⟩, false, false, -1, t, f, c, p⟩
        (Ev.frame (pressInput (l[jn])))
        = some ⟨⟨l, ((jn + 1 : Nat) : Int), m⟩, false, false, -1, t, f, c,
                 if ((jn + 1 : Nat) : Int) < (l.length : Int) then p else p + 1⟩ := by
      rw [step_frame, h1]
      rfl
    rw [loopRun_cons_some _ _ _ _ hs1]
    have hrec := ih (jn + 1) t f c
      (if ((jn + 1 : Nat) : Int) < (l.length : Int) then p else p + 1) (by omega)
    rw [show reproduceEvents (l.drop (jn + 1))
          = List.map (fun v => Ev.frame (pressInput v)) (l.drop (jn + 1)) from rfl] at hrec
    rw [hrec]
    have hP : (if jn + 1 = l.length
          then (if ((jn + 1 : Nat) : Int) < (l.length : Int) then p else p + 1)
          else (if ((jn + 1 : Nat) : Int) < (l.length : Int) then p else p + 1) + 1)
        = (if jn = l.length then p else p + 1) := by
      have hne2 : jn ≠ l.length := by omega
      by_cases hEnd : jn + 1 = l.length
      · have hnl : ¬ (((jn + 1 : Nat) : Int) < (l.length : Int)) := by omega
        simp [hEnd, hnl, hne2]
      · have hyl : ((jn + 1 : Nat) : Int) < (l.length : Int) := by omega
        simp [hEnd, hyl, hne2]
        omega
    rw [hP]

/-- One clean round from `roundStart l`: playback, hand-over, correct
reproduction and the single reset firing yield `roundStart (l ++ [r])` — the
sequence grew by exactly the one drawn symbol. -/
lemma round_ok (l : List Int) (r : Int) (hl : l ≠ [])
    (hval : ∀ x ∈ l, 0 ≤ x ∧ x < 4) (h0 : 0 ≤ r) (h4 : r < 4) :
    loopRun (roundStart l) (roundEvents l r) = some (roundStart (l ++ [r])) := by
  have hlne : ¬ ((0 : Nat) = l.length) := by
    intro habs
    exact hl (List.eq_nil_of_length_eq_zero habs.symm)
  have e1 : loopRun (roundStart l) (playbackEvents l.length)
      = some ⟨⟨l, (l.length : Int), 4⟩, true, false, -1, 0, 0, 0, 0⟩ := by
    have hp := playback_phase l 4 (fun x hx => (hval x hx).1) l.length 0 false 0 0 0 0 (by omega)
    rw [Nat.cast_zero] at hp
    exact hp
  have hex := frameStep_exhaust ⟨⟨l, (l.length : Int), 4⟩, true, false, -1, 0, 0, 0, 0⟩
    emptyInput rfl rfl (by norm_num)
  have hstep2 : step ⟨⟨l, (l.length : Int), 4⟩, true, false, -1, 0, 0, 0, 0⟩
      (Ev.frame emptyInput)
      = some ⟨⟨l, 0, 4⟩, false, false, -1, 0, 0, 0, 0⟩ := by
    rw [step_frame, hex]
  have e2 : loopRun ⟨⟨l, (l.length : Int), 4⟩, true, false, -1, 0, 0, 0, 0⟩
      [Ev.frame emptyInput]
      = some ⟨⟨l, 0, 4⟩, false, false, -1, 0, 0, 0, 0⟩ := by
    rw [loopRun_cons_some _ _ _ _ hstep2]
    rfl
  have e3 : loopRun ⟨⟨l, 0, 4⟩, false, false, -1, 0, 0, 0, 0⟩ (reproduceEvents l)
      = some ⟨⟨l, (l.length : Int), 4⟩, false, false, -1, 0, 0, 0, 1⟩ := by
    have hq := reproduce_phase l 4 hval l.length 0 0 0 0 0 (by omega)
    rw [Nat.cast_zero, List.drop_zero] at hq
    simp only [hlne, if_false] at hq
    exact hq
  have hstep4 : step ⟨⟨l, (l.length : Int), 4⟩, false, false, -1, 0, 0, 0, 1⟩
      (Ev.resetFired r)
      = some (roundStart (l ++ [r])) := by
    rw [step_reset _ _ (by norm_num) h0 h4]
    simp [Sequence.Reset, roundStart]
  have e4 : loopRun ⟨⟨l, (l.length : Int), 4⟩, false, false, -1, 0, 0, 0, 1⟩
      [Ev.resetFired r]
      = some (roundStart (l ++ [r])) := by
    rw [loopRun_cons_some _ _ _ _ hstep4]
    rfl
  rw [roundEvents, loopRun_append, loopRun_append, loopRun_append, e1]
  simp only [Option.some_bind]
  rw [e2]
  simp only [Option.some_bind]
  rw [e3]
  simp only [Option.some_bind]
  exact e4

/-- Clean rounds compose: consuming draws `rs` appends exactly `rs`. -/
lemma clean_rounds_aux :
    ∀ (rs : List Int) (l : List Int), l ≠ [] →
      (∀ x ∈ l, 0 ≤ x ∧ x < 4) → (∀ x ∈ rs, 0 ≤ x ∧ x < 4) →
      loopRun (roundStart l) (gameEvents l rs) = some (roundStart (l ++ rs)) := by
  intro rs
  induction rs with
  | nil =>
    intro l _ _ _
    simp [gameEvents, loopRun]
  | cons r t ih =>
    intro l hl hval hrs
    have hr := hrs r (List.mem_cons_self r t)
    rw [gameEvents, loopRun_append, round_ok l r hl hval hr.1 hr.2]
    simp only [Option.some_bind]
    have hval' : ∀ x ∈ l ++ [r], 0 ≤ x ∧ x < 4 := by
      intro x hx
      rcases List.mem_append.mp hx with h | h
      · exact hval x h
      · simp at h
        subst h
        exact hr
    have ht := ih (l ++ [r]) (by simp) hval' (fun x hx => hrs x (List.mem_cons_of_mem r hx))
    rw [ht, List.append_assoc]
    rfl

/-- C1 (amended): in a clean game — after each completed round exactly the one
scheduled reset callback fires and no extra selection frames arrive during the
wait window — after `N = rs.length` successful rounds the machine is back at a
round start holding exactly the initial symbol plus one appended symbol per
round: length `N + 1` once round `N+1` has begun (equivalently `N` before the
post-round reset fires).  The unamended claim fails because a selection frame
during the wait window schedules an extra reset callback; see the
counterexample. -/
theorem clean_rounds_growth (d0 : Int) (rs : List Int)
    (hd : 0 ≤ d0 ∧ d0 < 4) (hrs : ∀ x ∈ rs, 0 ≤ x ∧ x < 4) :
    loopRun (initState d0) (gameEvents [d0] rs) = some (roundStart (d0 :: rs))
    ∧ (roundStart (d0 :: rs)).seq.list.length = rs.length + 1 := by
  constructor
  · have h := clean_rounds_aux rs [d0] (by simp)
      (by intro x hx; simp at hx; subst hx; exact hd) hrs
    exact h
  · simp [roundStart]

/-- C1 witness: a concrete two-round clean game. -/
theorem clean_rounds_growth_witness :
    (0 ≤ (2 : Int) ∧ (2 : Int) < 4)
    ∧ loopRun (initState 2) (gameEvents [2] [0, 3]) = some (roundStart [2, 0, 3]) :=
  ⟨by decide, (clean_rounds_growth 2 [0, 3] (by decide) (by decide)).1⟩

/-- C1 counterexample: starting from `initState 2` (sequence `[2]`), round 1
is played back and correctly reproduced (scheduling the round reset), then one
extra click arrives during the reset wait window: the judging block runs with
the sequence exhausted, `Next` returns the sentinel, and — since the game is
not terminating and `HasNext()` is false — a second reset callback is
scheduled.  Both callbacks fire, each appending one symbol: back in
`SimonPlaying` after exactly one successful round the length is 3, not the 2
the growing-by-one rule demands, so a single return to `SimonPlaying` appended
two symbols. -/
theorem double_reset_append :
    loopRun (initState 2) doubleResetEvents
      = some ⟨⟨[2, 1, 3], 0, 4⟩, true, false, -1, 0, 0, 0, 0⟩
    ∧ (Sequence.mk [2, 1, 3] 0 4).Len ≠ 2 := by decide

/-- C9 (amended): of the four scheduled timer callbacks, the playback tick,
the failure-report callback and the close callback mutate no game state in the
timer context (the failure callback only reads `Len`); but the round-reset
callback of lines 238-243 sets `simonPlay` and grows the `Sequence` directly
in its own execution context rather than handing off into the event loop. -/
theorem timer_callbacks_state (s : LoopState) (r : Int) :
    (tickCallback s).1 = s
    ∧ (failCallback s).1 = s
    ∧ (closeCallback s).1 = s
    ∧ (roundResetCallback r s).1 = { s with simonPlay := true, seq := s.seq.Reset true r } :=
  ⟨rfl, rfl, rfl, rfl⟩

/-- C9 counterexample: the round-reset timer callback itself changes the game
state (it flips `simonPlay` and appends to the sequence), so not every
scheduled callback hands off into the serialized event loop before mutating
shared state. -/
theorem reset_callback_mutates_state :
    (roundResetCallback 1 (initState 2)).1 ≠ initState 2
    ∧ (roundResetCallback 1 (initState 2)).1.seq.list = [2, 1] := by decide

/-- C5: in `AwaitingPlayer` (not playing, not terminating), when the live
selected symbol differs from the symbol `Sequence.Next()` returns, the frame
transitions to `Terminating`, schedules the failure callback (and no round
reset), leaves the stored list unchanged, and the failure callback reports
`Sequence.Len() - 1` — the pre-failure sequence length. -/
theorem mismatch_terminates_and_reports (s : LoopState) (inp : FrameInput)
    (hplay : s.simonPlay = false) (hterm : s.terminating = false)
    (hu : 0 ≤ s.selected)
    (hwf : 0 ≤ s.seq.lindex) (hlt : s.seq.lindex < (s.seq.list.length : Int))
    (hval : ∀ x ∈ s.seq.list, 0 ≤ x)
    (hmm : s.seq.list.getD s.seq.lindex.toNat 0 ≠ s.selected) :
    (frameStep s inp).1.terminating = true
    ∧ (frameStep s inp).1.pendingFails = s.pendingFails + 1
    ∧ (frameStep s inp).1.pendingResets = s.pendingResets
    ∧ (frameStep s inp).1.seq.list = s.seq.list
    ∧ (failCallback (frameStep s inp).1).2
        = [Eff.report (s.seq.Len - 1), Eff.buzz, Eff.scheduleClose] := by
  obtain ⟨⟨l, j, m⟩, sp, tm, sel, a, b, c, d⟩ := s
  simp only at hplay hterm hu hwf hlt hval hmm ⊢
  subst hplay
  subst hterm
  have hne : j ≠ (l.length : Int) := by omega
  have hnx : (Sequence.mk l j m).Next = (l.getD j.toNat 0, Sequence.mk l (j + 1) m) := by
    simp [Sequence.Next, hne]
  have htn : j.toNat < l.length := by omega
  have hmem : l.getD j.toNat 0 ∈ l := by
    rw [List.getD_eq_getElem _ _ htn]
    exact l.getElem_mem htn
  have hsim : 0 ≤ l.getD j.toNat 0 := hval _ hmem
  have hpl : ∀ evs, (padsLoop false inp.audioPlaying evs sel).1 = (sel, sel) :=
    fun evs => padsLoop_kb inp.audioPlaying evs sel hu
  have hsim2 : 0 ≤ l[j.toNat]?.getD 0 := by simpa using hsim
  have hmm2 : ¬ (l[j.toNat]?.getD 0 = sel) := by simpa using hmm
  simp [frameStep, hnx, hpl, hu, hsim2, hmm2, failCallback, Sequence.Len]

/-- C6: an `AwaitingPlayer` frame carrying no new selection (no pointer press
and no live keyboard selection) never consumes `Sequence.Next()`: the sequence
(cursor included) and all judging state are untouched, and `selected` ends the
frame cleared to -1, so a consumed selection is judged at most once. -/
theorem no_selection_frame_no_judge (s : LoopState) (inp : FrameInput)
    (hplay : s.simonPlay = false) (hsel : s.selected < 0)
    (hnp : ∀ i, PEvent.press ∉ inp.ptr i) :
    (frameStep s inp).1.seq = s.seq
    ∧ (frameStep s inp).1.selected = -1
    ∧ (frameStep s inp).1.terminating = s.terminating
    ∧ (frameStep s inp).1.simonPlay = false
    ∧ (frameStep s inp).1.pendingFails = s.pendingFails
    ∧ (frameStep s inp).1.pendingResets = s.pendingResets := by
  obtain ⟨sq, sp, tm, sel, a, b, c, d⟩ := s
  simp only at hplay hsel ⊢
  subst hplay
  have hnp' : ∀ i, PEvent.press ∉
      ((fun i => if (false || tm : Bool) then [] else inp.ptr i) i : List PEvent) := by
    intro i
    by_cases hd : tm
    · simp [hd]
    · simp [hd]
      exact hnp i
  have hpads := padsLoop_noPress inp.audioPlaying _ sel hsel hnp'
  simp only [frameStep]
  simp only [Bool.false_eq_true, if_false]
  rw [hpads.1]
  norm_num

/-- C8: with a live keyboard selection pending, the pads pass copies it to the
judged `user` without consulting any pointer events, and the whole frame
result is identical to the same frame with all pointer events removed: the
keyboard short-circuits the pointer scan. -/
theorem keyboard_overrides_pointer (s : LoopState) (inp : FrameInput)
    (hplay : s.simonPlay = false) (hsel : 0 ≤ s.selected) :
    (∀ (ap : Bool) (evs : Fin 4 → List PEvent),
        (padsLoop false ap evs s.selected).1 = (s.selected, s.selected))
    ∧ frameStep s inp = frameStep s { ptr := fun _ => [], audioPlaying := inp.audioPlaying } := by
  refine ⟨fun ap evs => padsLoop_kb ap evs s.selected hsel, ?_⟩
  obtain ⟨sq, sp, tm, sel, a, b, c, d⟩ := s
  simp only at hplay hsel ⊢
  subst hplay
  have hpe : padsLoop false inp.audioPlaying
        (fun i => if (false || tm : Bool) then [] else inp.ptr i) sel
      = padsLoop false inp.audioPlaying (fun _ => ([] : List PEvent)) sel := by
    unfold padsLoop
    exact foldl_padIter_kb_events _ _ _ sel hsel _ _ rfl
  simp only [frameStep]
  simp only [Bool.false_eq_true, if_false]
  rw [hpe]
  simp

/-- C5 witness: the theorem applied to the scenario-2 state — sequence
`[2, 0]`, first symbol already matched, keyboard selection 1 against expected
symbol 0. -/
theorem mismatch_terminates_and_reports_witness :
    (frameStep ⟨⟨[2, 0], 1, 4⟩, false, false, 1, 0, 0, 0, 0⟩ emptyInput).1.terminating = true
    ∧ (failCallback (frameStep ⟨⟨[2, 0], 1, 4⟩, false, false, 1, 0, 0, 0, 0⟩ emptyInput).1).2
        = [Eff.report ((Sequence.mk [2, 0] 1 4).Len - 1), Eff.buzz, Eff.scheduleClose] := by
  have h := mismatch_terminates_and_reports ⟨⟨[2, 0], 1, 4⟩, false, false, 1, 0, 0, 0, 0⟩
    emptyInput rfl rfl (by decide) (by decide) (by decide) (by decide) (by decide)
  exact ⟨h.1, h.2.2.2.2⟩

/-- C6 witness: the theorem applied to an `AwaitingPlayer` state receiving a
frame with only release and other pointer events. -/
theorem no_selection_frame_no_judge_witness :
    (frameStep ⟨⟨[2], 0, 4⟩, false, false, -1, 0, 0, 0, 0⟩
        ⟨fun _ => [PEvent.release, PEvent.other], false⟩).1.seq = Sequence.mk [2] 0 4
    ∧ (frameStep ⟨⟨[2], 0, 4⟩, false, false, -1, 0, 0, 0, 0⟩
        ⟨fun _ => [PEvent.release, PEvent.other], false⟩).1.selected = -1 := by
  have h := no_selection_frame_no_judge ⟨⟨[2], 0, 4⟩, false, false, -1, 0, 0, 0, 0⟩
    ⟨fun _ => [PEvent.release, PEvent.other], false⟩ rfl (by decide) (by decide)
  exact ⟨h.1, h.2.1⟩

/-- C8 witness: the theorem applied to a state with keyboard selection 3 while
a pointer press on pad 1 is pending in the same cycle. -/
theorem keyboard_overrides_pointer_witness :
    (padsLoop false false (padEvents 1) (3 : Int)).1 = (3, 3)
    ∧ frameStep ⟨⟨[2, 0], 0, 4⟩, false, false, 3, 0, 0, 0, 0⟩ (pressInput 1)
        = frameStep ⟨⟨[2, 0], 0, 4⟩, false, false, 3, 0, 0, 0, 0⟩
            ⟨fun _ => [], (pressInput 1).audioPlaying⟩ := by
  have h := keyboard_overrides_pointer ⟨⟨[2, 0], 0, 4⟩, false, false, 3, 0, 0, 0, 0⟩
    (pressInput 1) rfl (by decide)
  exact ⟨h.1 false (padEvents 1), h.2⟩
